import Mathlib

/-!
Shallow embedding of the polysat `fixplex` tableau
(`src/math/polysat/fixplex_def.h`) over the ring of unsigned integers
modulo `2^w`.  Ring elements are represented as naturals below `2^w`;
every operation reduces modulo `2^w` explicitly.  Assertion failures
(`SASSERT`) and non-termination of source loops are modelled by `Option`:
`none` means the operation aborts without producing a state.
-/

namespace Fixplex

/-- The ring modulus `2^w`. -/
def rsize (w : Nat) : Nat := 2 ^ w

/-- Ring addition modulo `2^w`. -/
def radd (w a b : Nat) : Nat := (a + b) % rsize w

/-- Ring multiplication modulo `2^w`. -/
def rmul (w a b : Nat) : Nat := (a * b) % rsize w

/-- Ring subtraction `a - b` modulo `2^w` (two's complement style). -/
def rsub (w a b : Nat) : Nat := (a + (rsize w - b % rsize w)) % rsize w

/-- Ring negation modulo `2^w`. -/
def rneg (w b : Nat) : Nat := rsub w 0 b

/-- The numeral division used by the source (`operator/` on fixed-width
unsigned numerals): plain truncating division of the representatives. -/
def rdiv (a b : Nat) : Nat := a / b

/-- Bridge into `ZMod (2^w)` used for modular-arithmetic reasoning. -/
def toZ (w : Nat) (a : Nat) : ZMod (rsize w) := (a : ZMod (rsize w))

/-- `fixplex::in_bounds(val, lo, hi)` (fixplex_def.h, lines 187-194). -/
def in_bounds (val lo hi : Nat) : Bool :=
  if lo = hi then true
  else if lo < hi then decide (lo ≤ val ∧ val < hi)
  else decide (val < hi ∨ lo ≤ val)

/-- Trailing-zero count of a ring element of width `w` (numeral-ring
collaborator `trailing_zeros`): the largest `k ≤ w` with `2^k ∣ n`; for
`n = 0` every power divides, giving `w`. -/
def trailing_zeros (w n : Nat) : Nat :=
  (((List.range (w + 1)).filter (fun k => n % 2 ^ k = 0)).length) - 1

/-- Modular inverse of an odd ring element (numeral-ring collaborator
`inv`); the collaborator is specified only on odd elements, so an even
argument yields `none` (modelled abort). -/
def minv (w n : Nat) : Option Nat :=
  (List.range (rsize w)).find? (fun k => (k * n) % rsize w = 1)

/-- Per-variable record (`var_info`): current value, bound interval
`[lo, hi)`, basic flag, owning row when basic. -/
structure VarInfo where
  value : Nat
  lo : Nat
  hi : Nat
  is_base : Bool
  base2row : Nat
deriving DecidableEq, Inhabited

/-- Per-row record (`row_info`): base variable, base coefficient, cached
value of the non-base part of the row. -/
structure RowInfo where
  base : Nat
  base_coeff : Nat
  value : Nat
deriving DecidableEq, Inhabited

/-- Tableau state.  The sparse matrix collaborator is embedded densely:
`mat` is parallel to `rows`, and `mat[r]` lists the coefficient of every
variable in row `r` (`0` = entry absent, so `row_entries`/`col_entries`
traverse the nonzero cells). -/
structure State where
  w : Nat
  vars : List VarInfo
  rows : List RowInfo
  mat : List (List Nat)
  to_patch : List Nat
  bland : Bool
  infeasible_var : Option Nat
deriving DecidableEq, Inhabited

/-- Coefficient of variable `v` in a dense row. -/
def coeffOf (row : List Nat) (v : Nat) : Nat := row.getD v 0

/-- Row indices whose row contains `v` with a nonzero coefficient
(`M.col_entries(v)`). -/
def col_rows (s : State) (v : Nat) : List Nat :=
  (List.range s.rows.length).filter (fun r => coeffOf (s.mat.getD r []) v ≠ 0)

/-- Nonzero entries `(var, coeff)` of a dense row (`M.row_entries`). -/
def row_entries (row : List Nat) : List (Nat × Nat) :=
  row.enum.filter (fun p => p.2 ≠ 0)

/-- `add_patch(v)`: enqueue `v` into the To-Patch set.  Modelled from the
spec: the helper is declared in the missing `fixplex.h`; per §3/§4.2 the
base variable is enqueued for re-evaluation (set semantics). -/
def add_patch (s : State) (v : Nat) : State :=
  if v ∈ s.to_patch then s else { s with to_patch := v :: s.to_patch }

/-- `fixplex::update_value(v, delta)` (fixplex_def.h, lines 132-154).
The source increments `v` first and only then asserts `!is_base(v)`;
an aborted run produces no state (`none`). -/
def update_value (s : State) (v : Nat) (delta : Nat) : Option State :=
  match s.vars[v]? with
  | none => none
  | some vi =>
    if delta % rsize s.w = 0 then some s
    else if vi.is_base then none
    else
      let s1 : State :=
        { s with vars := s.vars.set v { vi with value := radd s.w vi.value delta } }
      (List.range s1.rows.length).foldlM (fun t r =>
        match t.mat[r]?, t.rows[r]? with
        | some row, some ri =>
          let c := coeffOf row v
          if c = 0 then some t
          else
            let ri2 : RowInfo := { ri with value := radd t.w ri.value (rmul t.w delta c) }
            match t.vars[ri.base]? with
            | none => none
            | some bi =>
              some (add_patch
                { t with rows := t.rows.set r ri2,
                         vars := t.vars.set ri.base
                           { bi with value := rneg t.w (rdiv ri2.value ri2.base_coeff) } }
                ri.base)
        | _, _ => none) s1

/-- The dense row built by the entry-insertion loop of `add_row`
(fixplex_def.h, lines 92-94): zero coefficients are dropped. -/
def build_row (w nvars : Nat) (entries : List (Nat × Nat)) : List Nat :=
  entries.foldl
    (fun acc e => if e.2 % rsize w = 0 then acc else acc.set e.1 (e.2 % rsize w))
    (List.replicate nvars 0)

/-- `fixplex::add_row(base_var, num_vars, vars, coeffs)` (fixplex_def.h,
lines 87-126).  Entries with zero coefficient are dropped; the cached
value sums the non-base entries; entries that are currently basic in
another row are collected, and a nonempty collection sends the source
into `gauss_jordan()`, a loop that drains no work and never terminates
(modelled as `none`, like the `SASSERT` contract checks). -/
def add_row (s : State) (base_var : Nat) (entries : List (Nat × Nat)) :
    Option State :=
  if (entries.map Prod.fst).Nodup ∧ entries.all (fun e => e.1 < s.vars.length) then
    let row : List Nat := build_row s.w s.vars.length entries
    let base_coeff := coeffOf row base_var
    let others := (row_entries row).filter (fun p => p.1 ≠ base_var)
    let collected := others.filter (fun p => ((s.vars.getD p.1 default).is_base : Bool))
    let value := others.foldl
      (fun acc p => radd s.w acc (rmul s.w p.2 (s.vars.getD p.1 default).value)) 0
    if base_coeff = 0 then none
    else match s.vars[base_var]? with
      | none => none
      | some bi =>
        if bi.is_base then none
        else
          let rid := s.rows.length
          let s1 : State :=
            { s with rows := s.rows ++ [⟨base_var, base_coeff, value⟩],
                     mat := s.mat ++ [row],
                     vars := s.vars.set base_var
                       { bi with is_base := true, base2row := rid,
                                 value := rneg s.w (rdiv value base_coeff) } }
          let s2 := add_patch s1 base_var
          if collected.isEmpty then some s2 else none
  else none

/-- `fixplex::pivot(x, y, b, new_value)` (fixplex_def.h, lines 380-426).
The source writes `row_i.m_value` and `m_vars[row_z]` where only `row_x`
resp. `m_vars[row_z.m_base]` are in scope; those spellings are embedded
as the in-scope quantities.  The cascade iterates the column of `y` as
snapshot at entry; `m.inv` of an even numeral and a violated `SASSERT`
abort (`none`). -/
def pivot (s : State) (x y b new_value : Nat) : Option State :=
  match s.vars[x]?, s.vars[y]? with
  | some xI, some yI =>
    if xI.is_base = false then none
    else if yI.is_base then none
    else
      let rx := xI.base2row
      match s.rows[rx]?, s.mat[rx]? with
      | some row_x, some mrow_x =>
        let a := row_x.base_coeff
        let old_value_y := yI.value
        let newRowVal := radd s.w (rsub s.w row_x.value (rmul s.w b old_value_y))
                           (rmul s.w a new_value)
        let s1 : State :=
          { s with rows := s.rows.set rx ⟨y, b, newRowVal⟩,
                   vars := (s.vars.set y
                     { yI with base2row := rx, is_base := true,
                               value := rneg s.w (rdiv newRowVal b) }).set x
                     { xI with is_base := false, value := new_value } }
        let s2 := add_patch s1 y
        let tz1 := trailing_zeros s.w b
        (col_rows s y).foldlM (fun t rz =>
          if rz = rx then some t
          else
            match t.mat[rz]?, t.rows[rz]? with
            | some mrow_z, some row_z =>
              let c := coeffOf (s.mat.getD rz []) y
              let tz2 := trailing_zeros t.w c
              if tz1 ≤ tz2 then
                match minv t.w (c >>> (tz2 - tz1)) with
                | none => none
                | some c1 =>
                  let b1 := b >>> tz1
                  let mrow_z2 := (mrow_z.map (fun e => rmul t.w e b1)).zipWith
                    (fun e ex => radd t.w e (rmul t.w c1 ex)) mrow_x
                  let newZVal := radd t.w
                    (rmul t.w b1 (rsub t.w row_z.value old_value_y))
                    (rmul t.w c1 newRowVal)
                  let bc2 := rmul t.w row_z.base_coeff b1
                  let row_z2 : RowInfo := ⟨row_z.base, bc2, newZVal⟩
                  let zval := rneg t.w (rdiv newZVal bc2)
                  match t.vars[row_z.base]? with
                  | none => none
                  | some zI =>
                    some (add_patch
                      { t with mat := t.mat.set rz mrow_z2,
                               rows := t.rows.set rz row_z2,
                               vars := t.vars.set row_z.base { zI with value := zval } }
                      row_z.base)
              else none
            | _, _ => none) s2
      | _, _ => none
  | _, _ => none

/-- Tri-state outcome (`lbool`). -/
inductive Lbool where
  | ltrue
  | lfalse
  | lundef
deriving DecidableEq, Inhabited

/-- `INT_MAX`, the initial `best_so_far` of `select_pivot_core`. -/
def intMax : Int := 2 ^ 31 - 1

/-- `UINT_MAX`, the initial `best_col_sz` of `select_pivot_core`. -/
def uintMax : Nat := 2 ^ 32 - 1

/-- Oracle bundling (i) the overflow-checked collaborator arithmetic
(`m.signed_add` / `m.signed_mul`), (ii) helpers declared only in the
missing `fixplex.h` (`get_num_non_free_dep_vars`, `select_var_to_fix`
policy, `m_random`, `m_limit`, `m_max_iterations`, the anti-cycling
threshold), and (iii) the quantities `select_pivot_core` reads without
ever declaring or assigning them (`delta_best`, `num_best_so_far`, the
initial content of the uninitialised local `delta_y`). -/
structure Oracle where
  sadd : Nat → Nat → Option Nat
  smul : Nat → Nat → Option Nat
  numDep : Nat → Int → Int
  deltaBest : Nat
  deltaInit : Nat
  numBSF : Bool
  rand : Nat → Nat
  select : State → Option Nat
  maxIter : Nat
  blandLimit : Nat
  limit : Nat → Bool

/-- The `(coeff, lo, hi)` data of the row owned by basic variable `x`,
as scanned by `fixplex::is_infeasible_row` (fixplex_def.h, lines
327-346; the source's `M.row_entries(r)` names the row of `x`, the only
row in scope). -/
def row_data (s : State) (x : Nat) : Option (List (Nat × Nat × Nat)) :=
  match s.vars[x]? with
  | none => none
  | some xI =>
    if xI.is_base then
      match s.mat[xI.base2row]? with
      | none => none
      | some row =>
        (row_entries row).mapM (fun p =>
          (s.vars[p.1]?).map (fun vi => (p.2, vi.lo, vi.hi)))
    else none

/-- The scan loop of `is_infeasible_row`: accumulates the unchecked ring
sums `lo_sum`, `hi_sum` and the overflow-checked `diff`; an unconstrained
bound or a checked-arithmetic overflow aborts with `false`. -/
def infeasible_scan (w : Nat) (sadd smul : Nat → Nat → Option Nat) :
    List (Nat × Nat × Nat) → Nat → Nat → Nat → Bool
  | [], ls, hs, _ => decide (0 < ls ∧ ls ≤ hs)
  | e :: rest, ls, hs, diff =>
    if e.2.1 = e.2.2 then false
    else
      let ls2 := radd w ls (rmul w e.2.1 e.1)
      let hs2 := radd w hs (rmul w (rsub w e.2.2 1) e.1)
      match smul e.1 (rsub w e.2.2 e.2.1) with
      | none => false
      | some rng =>
        match sadd diff rng with
        | none => false
        | some diff2 => infeasible_scan w sadd smul rest ls2 hs2 diff2

/-- `fixplex::is_infeasible_row(x)` (fixplex_def.h, lines 327-346). -/
def is_infeasible_row (sadd smul : Nat → Nat → Option Nat) (s : State)
    (x : Nat) : Option Bool :=
  (row_data s x).map (fun l => infeasible_scan s.w sadd smul l 0 0 0)

/-- Ring-sum `Σ lo(v_i) · c_i` over row data, from accumulator `ls`. -/
def lo_sum_from (w : Nat) (ls : Nat) (l : List (Nat × Nat × Nat)) : Nat :=
  l.foldl (fun acc e => radd w acc (rmul w e.2.1 e.1)) ls

/-- Ring-sum `Σ (hi(v_i) - 1) · c_i` over row data, from accumulator. -/
def hi_sum_from (w : Nat) (hs : Nat) (l : List (Nat × Nat × Nat)) : Nat :=
  l.foldl (fun acc e => radd w acc (rmul w (rsub w e.2.2 1) e.1)) hs

/-- The checked range computation of the scan succeeds on the whole row
(no overflow in `c_i · (hi - lo)` or in accumulating the total range). -/
def scan_okb (sadd smul : Nat → Nat → Option Nat) (w : Nat) :
    List (Nat × Nat × Nat) → Nat → Bool
  | [], _ => true
  | e :: rest, diff =>
    match smul e.1 (rsub w e.2.2 e.2.1) with
    | none => false
    | some rng =>
      match sadd diff rng with
      | none => false
      | some diff2 => scan_okb sadd smul w rest diff2

/-- `fixplex::has_minimal_trailing_zeros(y, b)` (fixplex_def.h, lines
312-324). -/
def has_minimal_trailing_zeros (s : State) (y b : Nat) : Bool :=
  let tz1 := trailing_zeros s.w b
  if tz1 = 0 then true
  else (col_rows s y).all
    (fun r => decide (tz1 ≤ trailing_zeros s.w (coeffOf (s.mat.getD r []) y)))

/-- Accumulator of the `select_pivot_core` scan: chosen candidate,
`best_so_far`, `best_col_sz`, `best_in_bounds`, the reservoir counter
`n`, the loop-scope local `delta_y` (which survives across iterations),
and a counter driving the `m_random()` oracle. -/
structure SelAcc where
  result : Option (Nat × Nat)
  best_so_far : Int
  best_col_sz : Nat
  best_in_bounds : Bool
  n : Nat
  delta_y : Nat
  rcount : Nat
deriving DecidableEq

/-- One iteration of the `select_pivot_core` loop (fixplex_def.h, lines
260-308).  The source reads `a`, `delta_best` and `num_best_so_far`
without declaring them and tests the undeclared `is_pleateau`; they are
embedded as the row's base coefficient (as in `pivot`), the oracle's
`deltaBest` / `numBSF`, and the computed `is_plateau`. -/
def select_step (O : Oracle) (s : State) (x a row_value new_value : Nat)
    (acc : SelAcc) (p : Nat × Nat) : Option SelAcc :=
  let y := p.1
  let b := p.2
  if y = x then some acc
  else if ¬ has_minimal_trailing_zeros s y b then some acc
  else
    match s.vars[y]? with
    | none => none
    | some yI =>
      let new_y_value :=
        rdiv (rsub s.w (rsub s.w row_value (rmul s.w b yI.value))
               (rmul s.w a new_value)) b
      let inb := in_bounds new_y_value yI.lo yI.hi
      let dy :=
        if inb then acc.delta_y
        else if rsub s.w yI.lo new_y_value < rsub s.w new_y_value yI.hi then
          rsub s.w new_y_value yI.lo
        else rsub s.w yI.hi new_y_value
      let num := O.numDep y acc.best_so_far
      let col_sz := (col_rows s y).length
      let is_improvement :=
        acc.best_so_far = intMax ∨
        (¬ acc.best_in_bounds ∧ inb) ∨
        (¬ acc.best_in_bounds ∧ ¬ inb ∧ dy < O.deltaBest) ∨
        (acc.best_in_bounds ∧ inb ∧ num < acc.best_so_far) ∨
        (acc.best_in_bounds ∧ inb ∧ num = acc.best_so_far ∧
          col_sz < acc.best_col_sz)
      let is_plateau :=
        acc.best_in_bounds ∧ dy = O.deltaBest ∧ O.numBSF = true ∧
        col_sz = acc.best_col_sz
      if is_improvement then
        some { result := some (y, b), best_so_far := num, best_col_sz := col_sz,
               best_in_bounds := inb, n := 1, delta_y := dy, rcount := acc.rcount }
      else if is_plateau then
        let n2 := acc.n + 1
        if O.rand acc.rcount % n2 = 0 then
          some { acc with result := some (y, b), n := n2, delta_y := dy,
                          rcount := acc.rcount + 1 }
        else
          some { acc with n := n2, delta_y := dy, rcount := acc.rcount + 1 }
      else some { acc with delta_y := dy }

/-- `fixplex::select_pivot_core(x, delta, new_value, out_b)`
(fixplex_def.h, lines 245-310); the `delta` parameter is never read by
the body and is omitted.  `some none` is the source's `null_var` result,
outer `none` an aborted run. -/
def select_pivot_core (O : Oracle) (s : State) (x new_value : Nat) :
    Option (Option (Nat × Nat)) :=
  match s.vars[x]? with
  | none => none
  | some xI =>
    if ¬ xI.is_base then none
    else
      match s.rows[xI.base2row]?, s.mat[xI.base2row]? with
      | some ri, some mrow =>
        ((row_entries mrow).foldlM
          (select_step O s x ri.base_coeff ri.value new_value)
          ⟨none, intMax, uintMax, false, 0, O.deltaInit, 0⟩).map
          (fun acc => acc.result)
      | _, _ => none

/-- The candidate value chosen by `make_var_feasible` for an
out-of-bounds variable (fixplex_def.h, lines 213-221): `lo` when
`lo - val < val - hi` in the ring's unsigned order, else `hi - 1`. -/
def new_value_choice (w lo hi val : Nat) : Nat :=
  if rsub w lo val < rsub w val hi then lo else rsub w hi 1

/-- `fixplex::make_var_feasible(x)` (fixplex_def.h, lines 208-234). -/
def make_var_feasible (O : Oracle) (s : State) (x : Nat) :
    Option (Lbool × State) :=
  match s.vars[x]? with
  | none => none
  | some xI =>
    if in_bounds xI.value xI.lo xI.hi then some (Lbool.ltrue, s)
    else
      let nv := new_value_choice s.w xI.lo xI.hi xI.value
      match select_pivot_core O s x nv with
      | none => none
      | some none =>
        match is_infeasible_row O.sadd O.smul s x with
        | none => none
        | some true => some (Lbool.lfalse, s)
        | some false => some (Lbool.lundef, s)
      | some (some (y, b)) =>
        match pivot s x y b nv with
        | none => none
        | some s2 => some (Lbool.ltrue, s2)

/-- Modelled from the spec: `select_var_to_fix` is declared only in the
missing `fixplex.h`.  Per §4.3/§3 it removes and returns a member of the
To-Patch set — chosen by the engine's policy (oracle) normally and the
lowest-index member once the anti-cycling rule is active — or reports
that the set is empty. -/
def select_var_to_fix (O : Oracle) (s : State) : Option (Nat × State) :=
  match s.to_patch with
  | [] => none
  | h :: _ =>
    let v := if s.bland then s.to_patch.foldl Nat.min h
             else match O.select s with
               | some v0 => if v0 ∈ s.to_patch then v0 else h
               | none => h
    some (v, { s with to_patch := s.to_patch.erase v })

/-- Modelled from the spec: `check_blands_rule` is declared only in the
missing `fixplex.h`.  Per §4.3 it counts repeated selections of the same
variable and, past the threshold, switches selection to the
deterministic lowest-index rule by setting the Bland flag. -/
def check_blands_rule (O : Oracle) (v : Nat) (prev : Option Nat)
    (nrep : Nat) (s : State) : Nat × State :=
  if prev = some v then
    if nrep + 1 > O.blandLimit then (nrep + 1, { s with bland := true })
    else (nrep + 1, s)
  else (nrep, s)

/-- The loop of `fixplex::make_feasible` (fixplex_def.h, lines 53-85),
with an explicit fuel argument; `num_iterations` is incremented exactly
on the `l_true` branch, and the budget/cancellation guard is polled once
per iteration.  On a fired guard the pre-selection state is returned
(suspension only between completed pivots). -/
def make_feasible_aux (O : Oracle) :
    Nat → Nat → Nat → Option Nat → State → Option (Lbool × State)
  | 0, _, _, _, _ => none
  | fuel + 1, iters, nrep, prev, s =>
    match select_var_to_fix O s with
    | none => some (Lbool.ltrue, s)
    | some (v, s1) =>
      if O.limit iters = false ∨ O.maxIter < iters then some (Lbool.lundef, s)
      else
        let c := check_blands_rule O v prev nrep s1
        match make_var_feasible O c.2 v with
        | none => none
        | some (Lbool.ltrue, s3) =>
          make_feasible_aux O fuel (iters + 1) c.1 (some v) s3
        | some (Lbool.lfalse, s3) =>
          some (Lbool.lfalse, add_patch { s3 with infeasible_var := some v } v)
        | some (Lbool.lundef, s3) => some (Lbool.lundef, add_patch s3 v)

/-- `fixplex::make_feasible()` (fixplex_def.h, lines 53-85): the entry
resets the Bland flag and the recorded infeasible variable, then runs
the loop; `m_max_iterations + 2` frames always suffice (each frame
either returns or increments the iteration counter, which the guard
caps at `m_max_iterations`). -/
def make_feasible (O : Oracle) (s : State) : Option (Lbool × State) :=
  make_feasible_aux O (O.maxIter + 2) 0 0 none
    { s with bland := false, infeasible_var := none }

/-- The basis-bookkeeping invariant on the skeleton of a state (basic
flags and owning rows of the variables, base variable of each row, and
the row count of the matrix): exactly the variables marked basic have an
owning row, each row owns exactly one basic variable, and distinct rows
never own the same variable. -/
def basis_core (vb : List (Bool × Nat)) (rb : List Nat) (mlen : Nat) : Bool :=
  (mlen == rb.length) &&
  ((List.range vb.length).all (fun v =>
     match vb[v]? with
     | some bi => !bi.1 || (match rb[bi.2]? with
         | some bv => bv == v
         | none => false)
     | none => true)) &&
  ((List.range rb.length).all (fun r =>
     match rb[r]? with
     | some bv => (match vb[bv]? with
         | some bi => bi.1 && (bi.2 == r)
         | none => false)
     | none => true))

/-- Basic flag and owning row of every variable. -/
def skel_vars (s : State) : List (Bool × Nat) :=
  s.vars.map (fun vi => (vi.is_base, vi.base2row))

/-- Base variable of every row. -/
def skel_rows (s : State) : List Nat := s.rows.map RowInfo.base

/-- The basis-bookkeeping invariant of a state (spec §3). -/
def basis_ok (s : State) : Bool :=
  basis_core (skel_vars s) (skel_rows s) s.mat.length

/-- First row-invariant clause (spec §3): the cached value equals the
ring-sum of `coefficient * value(variable)` over the non-base entries. -/
def row_sum_ok (s : State) (r : Nat) : Bool :=
  match s.rows[r]?, s.mat[r]? with
  | some ri, some row =>
    ri.value == ((row_entries row).filter (fun p => p.1 ≠ ri.base)).foldl
      (fun acc p => radd s.w acc (rmul s.w p.2 (s.vars.getD p.1 default).value)) 0
  | _, _ => false

/-- Second row-invariant clause, as computed by the source: the base
variable's value is the ring negation of the truncating quotient of the
cached value by the base coefficient. -/
def row_div_ok (s : State) (r : Nat) : Bool :=
  match s.rows[r]? with
  | some ri =>
    match s.vars[ri.base]? with
    | some bi => bi.value == rneg s.w (rdiv ri.value ri.base_coeff)
    | none => false
  | none => false

/-- Exactness of the division in the row invariant (spec §3): the base
variable's value actually solves the row equation,
`base_coeff * value(base) + cached_value ≡ 0` in the ring. -/
def row_exact (s : State) (r : Nat) : Bool :=
  match s.rows[r]? with
  | some ri =>
    match s.vars[ri.base]? with
    | some bi => radd s.w (rmul s.w ri.base_coeff bi.value) ri.value == 0
    | none => false
  | none => false

/-- The observable data of a variable: value, bounds, basic flag, and —
for basic variables only — the owning row (`base2row` of a non-basic
variable is dead bookkeeping). -/
def var_obs (vi : VarInfo) : Nat × Nat × Nat × Bool × Nat :=
  (vi.value, vi.lo, vi.hi, vi.is_base, if vi.is_base then vi.base2row else 0)

/-- A 4-bit tableau with the single row `x + 3y = 0`, base `x` with
coefficient `1`, all values `0`. -/
def oneRowState : State :=
  ⟨4, [⟨0, 0, 0, true, 0⟩, ⟨0, 0, 0, false, 0⟩], [⟨0, 1, 0⟩], [[1, 3]],
    [], false, none⟩

/-- A 4-bit tableau with rows `x + 3y = 0` (base `x`) and `5y + z = 0`
(base `z`), all values `0`; `y` is non-basic and occurs in both rows. -/
def twoRowState : State :=
  ⟨4, [⟨0, 0, 0, true, 0⟩, ⟨0, 0, 0, false, 0⟩, ⟨0, 0, 0, true, 1⟩],
    [⟨0, 1, 0⟩, ⟨2, 1, 0⟩], [[1, 3, 0], [0, 5, 1]], [], false, none⟩

/-- The spec's infeasibility scenario (§8) on the 4-bit ring: row
`x + y = 0` with `x ∈ [5,16)` and `y ∈ [13,16)` (upper bound `16 ≡ 0`),
`y = 0`, base `x`. -/
def infRowState : State :=
  ⟨4, [⟨0, 5, 0, true, 0⟩, ⟨0, 13, 0, false, 0⟩], [⟨0, 1, 0⟩], [[1, 1]],
    [0], false, none⟩

/-- A 4-bit state with one out-of-bounds non-basic variable queued, used
to exercise the feasibility loop. -/
def patchedState : State :=
  ⟨4, [⟨0, 1, 2, false, 0⟩], [], [], [0], false, none⟩

/-- A concrete overflow-checked addition: succeeds exactly on sums that
do not wrap modulo `2^w`. -/
def checkedAdd (w : Nat) (a b : Nat) : Option Nat :=
  if a + b < rsize w then some (a + b) else none

/-- A concrete overflow-checked multiplication: succeeds exactly on
products that do not wrap modulo `2^w`. -/
def checkedMul (w : Nat) (a b : Nat) : Option Nat :=
  if a * b < rsize w then some (a * b) else none

/-- A concrete oracle instantiation on the 4-bit ring. -/
def oracle0 : Oracle :=
  ⟨checkedAdd 4, checkedMul 4, fun _ b => b, 0, 0, false, fun _ => 0,
    fun _ => none, 10, 5, fun _ => true⟩

/-- `oracle0` with the external cancellation signal firing at once. -/
def oracleStop : Oracle := { oracle0 with limit := fun _ => false }

theorem rsize_pos (w : Nat) : 0 < rsize w := Nat.pos_pow_of_pos w (by decide)

theorem radd_lt (w a b : Nat) : radd w a b < rsize w := Nat.mod_lt _ (rsize_pos w)

theorem rmul_lt (w a b : Nat) : rmul w a b < rsize w := Nat.mod_lt _ (rsize_pos w)

theorem rsub_lt (w a b : Nat) : rsub w a b < rsize w := Nat.mod_lt _ (rsize_pos w)

theorem toZ_radd (w a b : Nat) : toZ w (radd w a b) = toZ w a + toZ w b := by
  simp [toZ, radd, Nat.cast_add]

theorem toZ_rmul (w a b : Nat) : toZ w (rmul w a b) = toZ w a * toZ w b := by
  simp [toZ, rmul, Nat.cast_mul]

theorem toZ_rsub (w a b : Nat) : toZ w (rsub w a b) = toZ w a - toZ w b := by
  have hle : b % rsize w ≤ rsize w := le_of_lt (Nat.mod_lt _ (rsize_pos w))
  have hz : ((rsize w : Nat) : ZMod (rsize w)) = 0 := by
    simp [ZMod.natCast_self]
  simp only [toZ, rsub, ZMod.natCast_mod, Nat.cast_add, Nat.cast_sub hle, hz,
    ZMod.natCast_mod]
  ring

theorem toZ_inj (w a b : Nat) (ha : a < rsize w) (hb : b < rsize w)
    (h : toZ w a = toZ w b) : a = b := by
  haveI : NeZero (rsize w) := ⟨by have := rsize_pos w; omega⟩
  have hva := ZMod.val_natCast_of_lt ha
  have hvb := ZMod.val_natCast_of_lt hb
  have hv : (toZ w a).val = (toZ w b).val := by rw [h]
  rwa [toZ, toZ, hva, hvb] at hv

/-- C10: `in_bounds` is `true` when `lo = hi`, tests `lo ≤ val < hi` when
`lo < hi`, and tests `val < hi ∨ lo ≤ val` when `lo > hi`. -/
theorem in_bounds_cases (val lo hi : Nat) :
    (lo = hi → in_bounds val lo hi = true) ∧
    (lo < hi → (in_bounds val lo hi = true ↔ lo ≤ val ∧ val < hi)) ∧
    (hi < lo → (in_bounds val lo hi = true ↔ val < hi ∨ lo ≤ val)) := by
  refine ⟨fun h => by simp [in_bounds, h], fun h => ?_, fun h => ?_⟩
  · simp [in_bounds, Nat.ne_of_lt h, h]
  · have h1 : lo ≠ hi := Nat.ne_of_gt h
    have h2 : ¬ lo < hi := Nat.not_lt.mpr (le_of_lt h)
    simp [in_bounds, h1, h2]

/-- Witness for C10 at concrete inputs, including the ring maximum and
zero against an unconstrained bound. -/
theorem in_bounds_cases_witness :
    in_bounds 15 7 7 = true ∧ in_bounds 0 7 7 = true ∧
    in_bounds 6 5 16 = true ∧ in_bounds 2 13 4 = true := by
  refine ⟨(in_bounds_cases 15 7 7).1 rfl, (in_bounds_cases 0 7 7).1 rfl,
    ((in_bounds_cases 6 5 16).2.1 (by decide)).mpr (by decide),
    ((in_bounds_cases 2 13 4).2.2 (by decide)).mpr (by decide)⟩

theorem infeasible_scan_iff (w : Nat) (sadd smul : Nat → Nat → Option Nat) :
    ∀ (l : List (Nat × Nat × Nat)) (ls hs diff : Nat),
      infeasible_scan w sadd smul l ls hs diff = true ↔
        ((∀ e ∈ l, e.2.1 ≠ e.2.2) ∧ scan_okb sadd smul w l diff = true ∧
         0 < lo_sum_from w ls l ∧ lo_sum_from w ls l ≤ hi_sum_from w hs l) := by
  intro l
  induction l with
  | nil =>
    intro ls hs diff
    simp [infeasible_scan, scan_okb, lo_sum_from, hi_sum_from]
  | cons e rest ih =>
    intro ls hs diff
    by_cases hc : e.2.1 = e.2.2
    · simp only [infeasible_scan, hc, if_true, if_pos rfl]
      constructor
      · intro h; exact absurd h (by simp)
      · rintro ⟨hall, -⟩
        exact absurd hc (hall e (List.mem_cons_self e rest))
    · rcases hsm : smul e.1 (rsub w e.2.2 e.2.1) with - | rng
      · simp only [infeasible_scan, scan_okb, hc, if_neg hc, hsm]
        constructor
        · intro h; exact absurd h (by simp)
        · rintro ⟨-, h, -⟩; exact absurd h (by simp)
      · rcases hsa : sadd diff rng with - | diff2
        · simp only [infeasible_scan, scan_okb, hc, if_neg hc, hsm, hsa]
          constructor
          · intro h; exact absurd h (by simp)
          · rintro ⟨-, h, -⟩; exact absurd h (by simp)
        · have hstep : infeasible_scan w sadd smul (e :: rest) ls hs diff =
              infeasible_scan w sadd smul rest
                (radd w ls (rmul w e.2.1 e.1))
                (radd w hs (rmul w (rsub w e.2.2 1) e.1)) diff2 := by
            simp only [infeasible_scan, if_neg hc, hsm, hsa]
          have hok : scan_okb sadd smul w (e :: rest) diff =
              scan_okb sadd smul w rest diff2 := by
            simp only [scan_okb, hsm, hsa]
          have hls : lo_sum_from w ls (e :: rest) =
              lo_sum_from w (radd w ls (rmul w e.2.1 e.1)) rest := rfl
          have hhs : hi_sum_from w hs (e :: rest) =
              hi_sum_from w (radd w hs (rmul w (rsub w e.2.2 1) e.1)) rest := rfl
          rw [hstep, hok, hls, hhs, ih]
          constructor
          · rintro ⟨hall, hrest⟩
            exact ⟨fun e2 he2 => by
              rcases List.mem_cons.mp he2 with rfl | hm
              · exact hc
              · exact hall e2 hm, hrest⟩
          · rintro ⟨hall, hrest⟩
            exact ⟨fun e2 he2 => hall e2 (List.mem_cons_of_mem e he2), hrest⟩

/-- C1: `is_infeasible_row` reports the row infeasible exactly when every
variable of the row is constrained, every checked range computation
succeeds, and the ring sums satisfy `0 < lo_sum ≤ hi_sum`; it reports
"not proven" whenever some variable is unconstrained (`lo = hi`) or some
checked range computation overflows. -/
theorem is_infeasible_row_spec (sadd smul : Nat → Nat → Option Nat)
    (s : State) (x : Nat) (l : List (Nat × Nat × Nat))
    (h : row_data s x = some l) :
    is_infeasible_row sadd smul s x =
      some (infeasible_scan s.w sadd smul l 0 0 0) ∧
    (infeasible_scan s.w sadd smul l 0 0 0 = true ↔
      ((∀ e ∈ l, e.2.1 ≠ e.2.2) ∧ scan_okb sadd smul s.w l 0 = true ∧
       0 < lo_sum_from s.w 0 l ∧ lo_sum_from s.w 0 l ≤ hi_sum_from s.w 0 l)) ∧
    (((∃ e ∈ l, e.2.1 = e.2.2) ∨ scan_okb sadd smul s.w l 0 = false) →
      infeasible_scan s.w sadd smul l 0 0 0 = false) := by
  refine ⟨by simp [is_infeasible_row, h], infeasible_scan_iff s.w sadd smul l 0 0 0, ?_⟩
  intro hbad
  rcases hres : infeasible_scan s.w sadd smul l 0 0 0 with - | -
  · rfl
  · exfalso
    have hh := (infeasible_scan_iff s.w sadd smul l 0 0 0).mp hres
    rcases hbad with ⟨e, he, heq⟩ | hsf
    · exact (hh.1 e he) heq
    · rw [hh.2.1] at hsf; exact absurd hsf (by simp)

/-- Witness for C1 on the spec's §8 scenario: row `x + y = 0` with
`x ∈ [5,16)`, `y ∈ [13,16)` on the 4-bit ring (`lo_sum = 18 ≡ 2`,
`hi_sum = 30 ≡ 14`, `0 < 2 ≤ 14`). -/
theorem is_infeasible_row_spec_witness :
    is_infeasible_row oracle0.sadd oracle0.smul infRowState 0 = some true := by
  have h := (is_infeasible_row_spec oracle0.sadd oracle0.smul infRowState 0
    [(1, 5, 0), (1, 13, 0)] (by decide)).1
  rw [h]; decide

/-- C9: contract violations are rejected without producing a state — a
call of `update_value` on a basic variable (with a nonzero ring delta)
aborts, and `add_row` with a zero base coefficient aborts. -/
theorem contract_violation_rejected (s : State) (v delta : Nat)
    (vi : VarInfo) (base_var : Nat) (entries : List (Nat × Nat)) :
    (s.vars[v]? = some vi → vi.is_base = true → delta % rsize s.w ≠ 0 →
      update_value s v delta = none) ∧
    (coeffOf (build_row s.w s.vars.length entries) base_var = 0 →
      add_row s base_var entries = none) := by
  constructor
  · intro h hb hd
    simp [update_value, h, hd, hb]
  · intro h0
    rw [add_row]
    split
    · simp [h0]
    · rfl

/-- Witness for C9: `update_value` on the basic variable `x` of the
two-row tableau aborts, and `add_row` whose entry list gives the base
variable no coefficient aborts. -/
theorem contract_violation_rejected_witness :
    update_value twoRowState 0 1 = none ∧
    add_row twoRowState 1 [(0, 2)] = none :=
  ⟨(contract_violation_rejected twoRowState 0 1 ⟨0, 0, 0, true, 0⟩ 1 []).1
      (by decide) (by decide) (by decide),
   (contract_violation_rejected twoRowState 0 1 ⟨0, 0, 0, true, 0⟩ 1
      [(0, 2)]).2 (by decide)⟩

/-- C2 (code bug): a legal pivot on an invariant-satisfying tableau
(`x + 3y = 0`, base `x`, all values `0`, then `pivot(x, y, 3, 1)`)
leaves the base value at the truncating quotient `-(1/3) = 0`, for which
`3·0 + 1 ≢ 0`: the exact-division row invariant is not preserved even
though the cached-value field matches what the source computes. -/
theorem pivot_breaks_exact_division :
    basis_ok oneRowState = true ∧ row_sum_ok oneRowState 0 = true ∧
    row_div_ok oneRowState 0 = true ∧ row_exact oneRowState 0 = true ∧
    (pivot oneRowState 0 1 3 1).map (fun s1 => row_div_ok s1 0) = some true ∧
    (pivot oneRowState 0 1 3 1).map (fun s1 => row_exact s1 0) = some false := by
  decide

/-- C5 (code bug): the cascading elimination does not eliminate `y`.
Pivoting `x` with `y` (coefficient 3) on the invariant-satisfying
two-row tableau leaves `y` in the other row with coefficient
`3·5 + inv(5)·3 = 15 + 39 ≡ 6 ≠ 0` on the 4-bit ring, contradicting the
claimed canonical elimination (and the source's own comment, which
prescribes `r ← b1·r - c1·r_x` with `c1 = c >> (tz(c) - tz(b))`, not the
implemented `r ← b1·r + inv(c >> (tz(c) - tz(b)))·r_x`). -/
theorem pivot_cascade_no_elimination :
    basis_ok twoRowState = true ∧ row_sum_ok twoRowState 0 = true ∧
    row_sum_ok twoRowState 1 = true ∧ row_exact twoRowState 0 = true ∧
    row_exact twoRowState 1 = true ∧
    (pivot twoRowState 0 1 3 1).map
      (fun s1 => coeffOf (s1.mat.getD 1 []) 1) = some 6 := by
  decide

/-- C8 (counterexample): on the invariant-satisfying two-row tableau,
pivoting `x` with `y` and immediately pivoting `y` back with `x` (with
`x`'s original coefficient and `y`'s original value) does not restore
the variable values: `z`'s value moves from `0` to `12`. -/
theorem pivot_involution_fails :
    basis_ok twoRowState = true ∧ row_sum_ok twoRowState 0 = true ∧
    row_sum_ok twoRowState 1 = true ∧ row_div_ok twoRowState 0 = true ∧
    row_div_ok twoRowState 1 = true ∧ row_exact twoRowState 0 = true ∧
    row_exact twoRowState 1 = true ∧
    (twoRowState.vars.getD 2 default).value = 0 ∧
    ((pivot twoRowState 0 1 3 1).bind (fun s1 => pivot s1 1 0 1 0)).map
      (fun s2 => (s2.vars.getD 2 default).value) = some 12 := by
  decide

/-- C7 (counterexample): with `val = 0`, `lo = 3`, `hi = 13` on the
4-bit ring the variable is out of bounds, the ring-step up to `lo` is
`3` and the ring-step down to `hi - 1 = 12` is `4`, yet the code moves
toward `12`, not toward the strictly nearer bound `3`. -/
theorem nearer_bound_not_chosen :
    in_bounds 0 3 13 = false ∧ rsub 4 3 0 = 3 ∧
    rsub 4 0 (rsub 4 13 1) = 4 ∧ rsub 4 3 0 < rsub 4 0 (rsub 4 13 1) ∧
    new_value_choice 4 3 13 0 = 12 ∧ (12 : Nat) ≠ 3 := by
  decide

theorem rsub_eq_zero_iff (w a b : Nat) (ha : a < rsize w) (hb : b < rsize w) :
    rsub w a b = 0 ↔ a = b := by
  constructor
  · intro h
    apply toZ_inj w a b ha hb
    have hz := congrArg (toZ w) h
    rw [toZ_rsub] at hz
    have : toZ w a - toZ w b = 0 := by
      simpa [toZ] using hz
    have := sub_eq_zero.mp this
    exact this
  · rintro rfl
    apply toZ_inj w _ _ (rsub_lt w a a) (rsize_pos w)
    rw [toZ_rsub]
    simp [toZ]

theorem rsub_one (w hi : Nat) (h1 : 1 ≤ hi) (h2 : hi < rsize w) :
    rsub w hi 1 = hi - 1 := by
  have hrs : 2 ≤ rsize w := by omega
  unfold rsub
  have h1m : 1 % rsize w = 1 := Nat.mod_eq_of_lt (by omega)
  rw [h1m]
  have hsplit : hi + (rsize w - 1) = (hi - 1) + rsize w := by omega
  rw [hsplit, Nat.add_mod_right]
  exact Nat.mod_eq_of_lt (by omega)

theorem rsub_zero_one (w : Nat) : rsub w 0 1 = rsize w - 1 := by
  have hr := rsize_pos w
  unfold rsub
  rcases Nat.lt_or_ge 1 (rsize w) with h1 | h1
  · have h1m : 1 % rsize w = 1 := Nat.mod_eq_of_lt h1
    rw [h1m, Nat.zero_add]
    exact Nat.mod_eq_of_lt (by omega)
  · have h1 : rsize w = 1 := by omega
    simp [h1]

theorem out_of_bounds_ne_pred (w val lo hi : Nat) (hv : val < rsize w)
    (hl : lo < rsize w) (hh : hi < rsize w)
    (h : in_bounds val lo hi = false) : val ≠ rsub w hi 1 := by
  intro heq
  unfold in_bounds at h
  split at h
  · exact absurd h (by simp)
  · split at h
    · rename_i hlohi
      have h1 : 1 ≤ hi := by omega
      rw [rsub_one w hi h1 hh] at heq
      simp only [decide_eq_false_iff_not] at h
      exact h (by omega)
    · rename_i hne hge
      rcases Nat.eq_zero_or_pos hi with h0 | h1
      · subst h0
        rw [rsub_zero_one w] at heq
        simp only [decide_eq_false_iff_not] at h
        exact h (by omega)
      · rw [rsub_one w hi h1 hh] at heq
        simp only [decide_eq_false_iff_not] at h
        exact h (by omega)

theorem rsub_pred (w val hi : Nat)
    (h : rsub w val (rsub w hi 1) ≠ 0) :
    rsub w val hi = rsub w val (rsub w hi 1) - 1 := by
  have hd : rsub w val (rsub w hi 1) < rsize w := rsub_lt w _ _
  have hd1 : 1 ≤ rsub w val (rsub w hi 1) := Nat.pos_of_ne_zero h
  apply toZ_inj w _ _ (rsub_lt w val hi) (by omega)
  have hcast : toZ w (rsub w val (rsub w hi 1) - 1) =
      toZ w (rsub w val (rsub w hi 1)) - 1 := by
    simp only [toZ, Nat.cast_sub hd1, Nat.cast_one]
  rw [hcast, toZ_rsub, toZ_rsub, toZ_rsub]
  have h1 : toZ w 1 = 1 := by simp [toZ]
  rw [h1]
  ring

/-- C7 (amended): repairing a basic variable `x` that is already in
bounds returns `l_true` with the state unchanged (dropped, no pivot);
otherwise the candidate is `lo(x)` when the ring-step up to `lo(x)` is
at least two smaller than the ring-step down to `hi(x) - 1`, and
`hi(x) - 1` when the steps differ by at most one in either direction —
the source compares `lo - val` with `val - hi`, an off-by-one from
comparing the true step magnitudes, so an exactly-one-smaller step to
`lo(x)` loses. -/
theorem make_var_feasible_candidate (O : Oracle) (s : State) (x : Nat)
    (xI : VarInfo) (w val lo hi : Nat) :
    (s.vars[x]? = some xI → in_bounds xI.value xI.lo xI.hi = true →
      make_var_feasible O s x = some (Lbool.ltrue, s)) ∧
    (val < rsize w → lo < rsize w → hi < rsize w →
      in_bounds val lo hi = false →
      ((rsub w lo val + 2 ≤ rsub w val (rsub w hi 1) →
         new_value_choice w lo hi val = lo ∧
         rsub w lo val < rsub w val (rsub w hi 1)) ∧
       (rsub w val (rsub w hi 1) ≤ rsub w lo val + 1 →
         new_value_choice w lo hi val = rsub w hi 1))) := by
  constructor
  · intro h hin
    simp [make_var_feasible, h, hin]
  · intro hv hl hh hout
    have hne : val ≠ rsub w hi 1 := out_of_bounds_ne_pred w val lo hi hv hl hh hout
    have hd0 : rsub w val (rsub w hi 1) ≠ 0 := by
      intro h0
      exact hne ((rsub_eq_zero_iff w val (rsub w hi 1) hv (rsub_lt w hi 1)).mp h0)
    have hpred := rsub_pred w val hi hd0
    have hd1 : 1 ≤ rsub w val (rsub w hi 1) := Nat.pos_of_ne_zero hd0
    constructor
    · intro hle
      have hguard : rsub w lo val < rsub w val hi := by omega
      exact ⟨by simp [new_value_choice, hguard], by omega⟩
    · intro hge
      have hguard : ¬ (rsub w lo val < rsub w val hi) := by omega
      simp [new_value_choice, hguard]

/-- Witness for (amended) C7: the in-bounds branch on the one-row
tableau's base variable, and the candidate on the counterexample's
bounds. -/
theorem make_var_feasible_candidate_witness :
    make_var_feasible oracle0 oneRowState 0 = some (Lbool.ltrue, oneRowState) ∧
    new_value_choice 4 3 13 0 = rsub 4 13 1 :=
  ⟨(make_var_feasible_candidate oracle0 oneRowState 0 ⟨0, 0, 0, true, 0⟩
      4 0 3 13).1 (by decide) (by decide),
   ((make_var_feasible_candidate oracle0 oneRowState 0 ⟨0, 0, 0, true, 0⟩
      4 0 3 13).2 (by decide) (by decide) (by decide) (by decide)).2
      (by decide)⟩

theorem select_step_result (O : Oracle) (s : State) (x a rv nv : Nat)
    (acc acc1 : SelAcc) (p : Nat × Nat)
    (hstep : select_step O s x a rv nv acc p = some acc1) :
    acc1.result = acc.result ∨
      (p.1 ≠ x ∧ has_minimal_trailing_zeros s p.1 p.2 = true ∧
        acc1.result = some p) := by
  simp only [select_step] at hstep
  by_cases hx : p.1 = x
  · rw [if_pos hx] at hstep
    cases hstep
    left; rfl
  · rw [if_neg hx] at hstep
    by_cases hg : has_minimal_trailing_zeros s p.1 p.2
    · rw [if_neg (by simp [hg])] at hstep
      rcases hv : s.vars[p.1]? with - | yI
      · simp only [hv] at hstep
        exact absurd hstep (by simp)
      · simp only [hv] at hstep
        split_ifs at hstep
        all_goals cases hstep
        all_goals first
          | (left; rfl)
          | (right; exact ⟨hx, hg, by simp⟩)
    · rw [if_pos (by simp [hg])] at hstep
      cases hstep
      left; rfl

theorem select_fold_result (O : Oracle) (s : State) (x a rv nv : Nat) :
    ∀ (l : List (Nat × Nat)) (acc acc2 : SelAcc),
      l.foldlM (select_step O s x a rv nv) acc = some acc2 →
      acc2.result = acc.result ∨
        ∃ p ∈ l, p.1 ≠ x ∧ has_minimal_trailing_zeros s p.1 p.2 = true ∧
          acc2.result = some p := by
  intro l
  induction l with
  | nil =>
    intro acc acc2 h
    simp only [List.foldlM_nil, Option.pure_def, Option.some.injEq] at h
    left; rw [h]
  | cons p rest ih =>
    intro acc acc2 h
    rw [List.foldlM_cons] at h
    rcases hstep : select_step O s x a rv nv acc p with - | acc1
    · rw [hstep] at h; simp at h
    · rw [hstep] at h
      simp only [Option.pure_def, Option.bind_eq_bind, Option.some_bind] at h
      rcases ih acc1 acc2 h with heq | ⟨q, hq, hqx, hqg, hres⟩
      · rcases select_step_result O s x a rv nv acc acc1 p hstep with
          h1 | ⟨hpx, hpg, hpres⟩
        · left; rw [heq, h1]
        · right; exact ⟨p, List.mem_cons_self p rest, hpx, hpg, by rw [heq, hpres]⟩
      · right; exact ⟨q, List.mem_cons_of_mem p hq, hqx, hqg, hres⟩

/-- C6: (i) the eligibility gate `has_minimal_trailing_zeros(y, b)`
holds exactly when the trailing-zero count of `b` is minimal across
every coefficient on `y`'s column; (ii) any candidate returned by
`select_pivot_core` is a non-`x` entry of `x`'s row passing the gate;
(iii) hence if every entry fails the gate the selector returns
`null_var`; (iv) on `null_var` the caller resolves through the
infeasibility prover (`l_false` if it proves, else `l_undef`). -/
theorem pivot_selection_gate (O : Oracle) (s : State) (x nv y b : Nat)
    (xI : VarInfo) (mrow : List Nat) (res : Option (Nat × Nat)) :
    (has_minimal_trailing_zeros s y b = true ↔
      ∀ r ∈ col_rows s y,
        trailing_zeros s.w b ≤ trailing_zeros s.w (coeffOf (s.mat.getD r []) y)) ∧
    (s.vars[x]? = some xI → s.mat[xI.base2row]? = some mrow →
      select_pivot_core O s x nv = some (some (y, b)) →
      ((y, b) ∈ row_entries mrow ∧ y ≠ x ∧
        has_minimal_trailing_zeros s y b = true)) ∧
    (s.vars[x]? = some xI → s.mat[xI.base2row]? = some mrow →
      (∀ p ∈ row_entries mrow, p.1 ≠ x →
        has_minimal_trailing_zeros s p.1 p.2 = false) →
      select_pivot_core O s x nv = some res → res = none) ∧
    (s.vars[x]? = some xI → in_bounds xI.value xI.lo xI.hi = false →
      select_pivot_core O s x
        (new_value_choice s.w xI.lo xI.hi xI.value) = some none →
      make_var_feasible O s x = (is_infeasible_row O.sadd O.smul s x).map
        (fun bb => (if bb then Lbool.lfalse else Lbool.lundef, s))) := by
  refine ⟨?_, ?_, ?_, ?_⟩
  · unfold has_minimal_trailing_zeros
    by_cases h : trailing_zeros s.w b = 0
    · simp [h]
    · simp [h, List.all_eq_true]
  · intro hx hm hsel
    unfold select_pivot_core at hsel
    simp only [hx] at hsel
    by_cases hbase : xI.is_base = true
    · simp only [hbase, not_true, if_false] at hsel
      rcases hr : s.rows[xI.base2row]? with - | ri
      · simp [hr] at hsel
      · simp only [hr, hm] at hsel
        rcases hfd : (row_entries mrow).foldlM
            (select_step O s x ri.base_coeff ri.value nv)
            ⟨none, intMax, uintMax, false, 0, O.deltaInit, 0⟩ with - | acc2
        · rw [hfd] at hsel; simp at hsel
        · rw [hfd] at hsel
          simp only [Option.map_some', Option.some.injEq] at hsel
          rcases select_fold_result O s x ri.base_coeff ri.value nv
              (row_entries mrow) _ acc2 hfd with heq | ⟨p, hp, hpx, hpg, hres⟩
          · rw [heq] at hsel; simp at hsel
          · rw [hres] at hsel
            have hpyb : p = (y, b) := by
              simpa using hsel
            rw [hpyb] at hp hpx hpg
            exact ⟨hp, hpx, hpg⟩
    · simp [hbase] at hsel
  · intro hx hm hall hsel
    unfold select_pivot_core at hsel
    simp only [hx] at hsel
    by_cases hbase : xI.is_base = true
    · simp only [hbase, not_true, if_false] at hsel
      rcases hr : s.rows[xI.base2row]? with - | ri
      · simp [hr] at hsel
      · simp only [hr, hm] at hsel
        rcases hfd : (row_entries mrow).foldlM
            (select_step O s x ri.base_coeff ri.value nv)
            ⟨none, intMax, uintMax, false, 0, O.deltaInit, 0⟩ with - | acc2
        · rw [hfd] at hsel; simp at hsel
        · rw [hfd] at hsel
          simp only [Option.map_some', Option.some.injEq] at hsel
          rcases select_fold_result O s x ri.base_coeff ri.value nv
              (row_entries mrow) _ acc2 hfd with heq | ⟨p, hp, hpx, hpg, hres⟩
          · rw [← hsel, heq]
          · rw [hall p hp hpx] at hpg
            exact absurd hpg (by simp)
    · simp [hbase] at hsel
  · intro hx hin hsel
    unfold make_var_feasible
    simp only [hx, hin]
    rw [if_neg (by simp)]
    simp only [hsel]
    rcases hir : is_infeasible_row O.sadd O.smul s x with - | bb
    · simp [hir]
    · rcases bb with - | - <;> simp [hir]

/-- Witness for C6: the gate holds for coefficient `3` on `y`'s column
of the two-row tableau (trailing-zero count `0` is minimal). -/
theorem pivot_selection_gate_witness :
    has_minimal_trailing_zeros twoRowState 1 3 = true :=
  (pivot_selection_gate oracle0 twoRowState 0 0 1 3 ⟨0, 0, 0, true, 0⟩
    [1, 3, 0] none).1.mpr (by decide)

theorem add_patch_vars (s : State) (v : Nat) : (add_patch s v).vars = s.vars := by
  unfold add_patch; split <;> rfl

theorem add_patch_rows (s : State) (v : Nat) : (add_patch s v).rows = s.rows := by
  unfold add_patch; split <;> rfl

theorem add_patch_mat (s : State) (v : Nat) : (add_patch s v).mat = s.mat := by
  unfold add_patch; split <;> rfl

theorem add_patch_w (s : State) (v : Nat) : (add_patch s v).w = s.w := by
  unfold add_patch; split <;> rfl

theorem foldlM_skip {σ : Type} (f : σ → Nat → Option σ) (rx : Nat)
    (hf : ∀ t, f t rx = some t) :
    ∀ (l : List Nat) (t : σ), (∀ r ∈ l, r = rx) → l.foldlM f t = some t := by
  intro l
  induction l with
  | nil => intro t _; rfl
  | cons r rest ih =>
    intro t h
    rw [List.foldlM_cons, h r (List.mem_cons_self r rest), hf t]
    simp only [Option.pure_def, Option.bind_eq_bind, Option.some_bind]
    exact ih t (fun q hq => h q (List.mem_cons_of_mem r hq))

theorem set_self_of_getElem {α : Type} (l : List α) (i : Nat) (a : α)
    (h : l[i]? = some a) : l.set i a = l := by
  apply List.ext_getElem?
  intro j
  by_cases hj : i = j
  · subst hj
    rw [List.getElem?_set_self (List.getElem?_eq_some.mp h).1]
    exact h.symm
  · rw [List.getElem?_set_ne hj]

/-- `pivot` on a state where the entering variable `y`'s column meets
only `x`'s own row: the cascade is empty and the pivot performs exactly
the basis exchange of fixplex_def.h lines 380-401. -/
theorem pivot_no_cascade (s : State) (x y b nv : Nat) (xI yI : VarInfo)
    (ri : RowInfo) (mrow : List Nat) (V1 : Nat) (A B : VarInfo)
    (hx : s.vars[x]? = some xI) (hy : s.vars[y]? = some yI)
    (hbx : xI.is_base = true) (hby : yI.is_base = false)
    (hr : s.rows[xI.base2row]? = some ri)
    (hm : s.mat[xI.base2row]? = some mrow)
    (hcol : ∀ r ∈ col_rows s y, r = xI.base2row)
    (hV1 : V1 = radd s.w (rsub s.w ri.value (rmul s.w b yI.value))
      (rmul s.w ri.base_coeff nv))
    (hA : A = { yI with base2row := xI.base2row, is_base := true,
                        value := rneg s.w (rdiv V1 b) })
    (hB : B = { xI with is_base := false, value := nv }) :
    pivot s x y b nv = some (add_patch
      ⟨s.w, (s.vars.set y A).set x B, s.rows.set xI.base2row ⟨y, b, V1⟩,
        s.mat, s.to_patch, s.bland, s.infeasible_var⟩ y) := by
  subst hA hB hV1
  unfold pivot
  simp only [hx, hy]
  rw [if_neg (by simp [hbx]), if_neg (by simp [hby])]
  simp only [hr, hm]
  exact foldlM_skip _ xI.base2row (fun t => if_pos rfl) (col_rows s y) _ hcol

/-- C8 (amended): on a tableau satisfying the row/basis invariants in
which `x` and `y` occur in no row other than `x`'s own row (so neither
pivot cascades), pivoting `x` with `y` and then immediately pivoting `y`
back with `x` — passing `x`'s base coefficient and `y`'s original
value — restores the basic assignment, the base coefficient, the row,
the matrix, and every variable's observable data bit-for-bit. -/
theorem pivot_involution (s : State) (x y b nv : Nat) (xI yI : VarInfo)
    (ri : RowInfo) (mrow : List Nat)
    (hx : s.vars[x]? = some xI) (hy : s.vars[y]? = some yI)
    (hbx : xI.is_base = true) (hby : yI.is_base = false)
    (hr : s.rows[xI.base2row]? = some ri)
    (hm : s.mat[xI.base2row]? = some mrow)
    (hbase : ri.base = x) (hval : ri.value < rsize s.w)
    (hdiv : xI.value = rneg s.w (rdiv ri.value ri.base_coeff))
    (hcolY : ∀ r ∈ col_rows s y, r = xI.base2row)
    (hcolX : ∀ r ∈ col_rows s x, r = xI.base2row) :
    ∃ s2, (pivot s x y b nv).bind
        (fun s1 => pivot s1 y x ri.base_coeff yI.value) = some s2 ∧
      s2.vars.map var_obs = s.vars.map var_obs ∧
      s2.rows = s.rows ∧ s2.mat = s.mat := by
  have hxy : x ≠ y := by
    intro h
    rw [h, hy] at hx
    injection hx with h2
    rw [h2] at hby
    rw [hbx] at hby
    exact absurd hby (by decide)
  have hyL : y < s.vars.length := (List.getElem?_eq_some.mp hy).1
  have hxL : x < s.vars.length := (List.getElem?_eq_some.mp hx).1
  have hrL : xI.base2row < s.rows.length := (List.getElem?_eq_some.mp hr).1
  set V1 := radd s.w (rsub s.w ri.value (rmul s.w b yI.value))
    (rmul s.w ri.base_coeff nv) with hV1
  set A : VarInfo := { yI with base2row := xI.base2row, is_base := true, value := rneg s.w (rdiv V1 b) } with hA
  set B : VarInfo := { xI with is_base := false, value := nv } with hB
  have h1 := pivot_no_cascade s x y b nv xI yI ri mrow V1 A B
    hx hy hbx hby hr hm hcolY hV1 hA hB
  set S1 := add_patch ⟨s.w, (s.vars.set y A).set x B,
    s.rows.set xI.base2row ⟨y, b, V1⟩, s.mat, s.to_patch, s.bland,
    s.infeasible_var⟩ y with hS1
  rw [h1]
  simp only [Option.some_bind]
  have hS1vars : S1.vars = (s.vars.set y A).set x B := by
    rw [hS1]; exact add_patch_vars _ _
  have hS1rows : S1.rows = s.rows.set xI.base2row ⟨y, b, V1⟩ := by
    rw [hS1]; exact add_patch_rows _ _
  have hS1mat : S1.mat = s.mat := by
    rw [hS1]; exact add_patch_mat _ _
  have hS1w : S1.w = s.w := by
    rw [hS1]; exact add_patch_w _ _
  have hAb : A.base2row = xI.base2row := by rw [hA]
  have hbA : A.is_base = true := by rw [hA]
  have hbB : B.is_base = false := by rw [hB]
  have hx2 : S1.vars[y]? = some A := by
    rw [hS1vars, List.getElem?_set_ne hxy, List.getElem?_set_self hyL]
  have hy2 : S1.vars[x]? = some B := by
    rw [hS1vars, List.getElem?_set_self (by rw [List.length_set]; exact hxL)]
  have hr2 : S1.rows[A.base2row]? = some ⟨y, b, V1⟩ := by
    rw [hAb, hS1rows, List.getElem?_set_self hrL]
  have hm2 : S1.mat[A.base2row]? = some mrow := by
    rw [hAb, hS1mat]; exact hm
  have hcol2 : ∀ r ∈ col_rows S1 x, r = A.base2row := by
    intro r hrm
    rw [hAb]
    apply hcolX
    have hcr : col_rows S1 x = col_rows s x := by
      unfold col_rows
      rw [hS1mat, hS1rows, List.length_set]
    rwa [hcr] at hrm
  set V2 := radd S1.w (rsub S1.w V1 (rmul S1.w ri.base_coeff nv))
    (rmul S1.w b yI.value) with hV2
  set C : VarInfo := { B with base2row := A.base2row, is_base := true, value := rneg S1.w (rdiv V2 ri.base_coeff) } with hC
  set D : VarInfo := { A with is_base := false, value := yI.value } with hD
  have h2 := pivot_no_cascade S1 y x ri.base_coeff yI.value A B
    ⟨y, b, V1⟩ mrow V2 C D hx2 hy2 hbA hbB hr2 hm2 hcol2
    (by rw [hV2, hB]) hC hD
  rw [h2]
  have hV2eq : V2 = ri.value := by
    rw [hV2, hV1, hS1w]
    apply toZ_inj s.w _ _ (radd_lt s.w _ _) hval
    simp only [toZ_radd, toZ_rsub, toZ_rmul]
    ring
  refine ⟨_, rfl, ?_, ?_, ?_⟩
  · rw [add_patch_vars]
    show ((S1.vars.set x C).set y D).map var_obs = s.vars.map var_obs
    rw [hS1vars, List.set_set]
    apply List.ext_getElem?
    intro j
    rw [List.getElem?_map, List.getElem?_map]
    by_cases hjy : j = y
    · subst hjy
      rw [List.getElem?_set_self
        (by rw [List.length_set, List.length_set]; exact hyL), hy]
      rw [hD, hA]
      simp [var_obs, hby]
    · rw [List.getElem?_set_ne (fun h => hjy h.symm)]
      by_cases hjx : j = x
      · subst hjx
        rw [List.getElem?_set_self (by rw [List.length_set]; exact hxL), hx]
        have hCx : C = xI := by
          rw [hC, hB, hAb]
          have hCv : rneg S1.w (rdiv V2 ri.base_coeff) = xI.value := by
            rw [hS1w, hV2eq, ← hdiv]
          rw [hCv, ← hbx]
        rw [hCx]
      · rw [List.getElem?_set_ne (fun h => hjx h.symm),
          List.getElem?_set_ne (fun h => hjy h.symm)]
  · rw [add_patch_rows]
    show S1.rows.set A.base2row ⟨x, ri.base_coeff, V2⟩ = s.rows
    rw [hAb, hS1rows, List.set_set, hV2eq]
    rw [show (⟨x, ri.base_coeff, ri.value⟩ : RowInfo) = ri from by rw [← hbase]]
    exact set_self_of_getElem _ _ _ hr
  · rw [add_patch_mat]
    show S1.mat = s.mat
    exact hS1mat

/-- Witness for (amended) C8 on the one-row tableau `x + 3y = 0`. -/
theorem pivot_involution_witness :
    ∃ s2, ((pivot oneRowState 0 1 3 1).bind
        (fun s1 => pivot s1 1 0 1 0)) = some s2 ∧
      s2.vars.map var_obs = oneRowState.vars.map var_obs ∧
      s2.rows = oneRowState.rows ∧ s2.mat = oneRowState.mat :=
  pivot_involution oneRowState 0 1 3 1 ⟨0, 0, 0, true, 0⟩
    ⟨0, 0, 0, false, 0⟩ ⟨0, 1, 0⟩ [1, 3] (by decide) (by decide) (by decide)
    (by decide) (by decide) (by decide) (by decide) (by decide) (by decide)
    (by decide) (by decide)

theorem foldlM_preserve {α σ : Type} (f : σ → α → Option σ) (P : σ → Prop)
    (hstep : ∀ t a t2, f t a = some t2 → P t → P t2) :
    ∀ (l : List α) (t t2 : σ), l.foldlM f t = some t2 → P t → P t2 := by
  intro l
  induction l with
  | nil =>
    intro t t2 h hp
    simp only [List.foldlM_nil, Option.pure_def, Option.some.injEq] at h
    rwa [← h]
  | cons a rest ih =>
    intro t t2 h hp
    rw [List.foldlM_cons] at h
    rcases hst : f t a with - | t1
    · rw [hst] at h; simp at h
    · rw [hst] at h
      simp only [Option.pure_def, Option.bind_eq_bind, Option.some_bind] at h
      exact ih t1 t2 h (hstep t a t1 hst hp)

theorem map_set_congr {α β : Type} (f : α → β) (l : List α) (i : Nat)
    (a b : α) (h : l[i]? = some a) (hab : f b = f a) :
    (l.set i b).map f = l.map f := by
  apply List.ext_getElem?
  intro j
  rw [List.getElem?_map, List.getElem?_map]
  by_cases hj : i = j
  · subst hj
    rw [List.getElem?_set_self (List.getElem?_eq_some.mp h).1, h,
      Option.map_some', Option.map_some', hab]
  · rw [List.getElem?_set_ne hj]

theorem basis_core_prop (vb : List (Bool × Nat)) (rb : List Nat) (mlen : Nat) :
    basis_core vb rb mlen = true ↔
      (mlen = rb.length ∧
        (∀ (v r2 : Nat), vb[v]? = some (true, r2) → rb[r2]? = some v) ∧
        (∀ (r bv : Nat), rb[r]? = some bv → vb[bv]? = some (true, r))) := by
  unfold basis_core
  rw [Bool.and_eq_true, Bool.and_eq_true, beq_iff_eq,
    List.all_eq_true, List.all_eq_true]
  constructor
  · rintro ⟨⟨hlen, hall1⟩, hall2⟩
    refine ⟨hlen, ?_, ?_⟩
    · intro v r2 hv
      have hvL : v < vb.length := (List.getElem?_eq_some.mp hv).1
      have h1 := hall1 v (List.mem_range.mpr hvL)
      rcases hrb : rb[r2]? with - | bw
      · simp [hv, hrb] at h1
      · simp only [hv, hrb, Bool.not_true, Bool.false_or, beq_iff_eq] at h1
        rw [h1]
    · intro r bv hrb
      have hrL : r < rb.length := (List.getElem?_eq_some.mp hrb).1
      have h2 := hall2 r (List.mem_range.mpr hrL)
      rcases hvb : vb[bv]? with - | bi
      · simp [hrb, hvb] at h2
      · simp only [hrb, hvb, Bool.and_eq_true, beq_iff_eq] at h2
        rcases bi with ⟨f, r2⟩
        simp only at h2
        rw [h2.1, h2.2]
  · rintro ⟨hlen, h1, h2⟩
    refine ⟨⟨hlen, ?_⟩, ?_⟩
    · intro v _
      rcases hvb : vb[v]? with - | bi
      · simp [hvb]
      · rcases bi with ⟨f, r2⟩
        rcases f with - | -
        · simp [hvb]
        · have hr := h1 v r2 hvb
          simp [hvb, hr]
    · intro r _
      rcases hrb : rb[r]? with - | bv
      · simp [hrb]
      · have hv := h2 r bv hrb
        simp [hrb, hv]

theorem basis_core_swap (vb : List (Bool × Nat)) (rb : List Nat)
    (mlen x y rx b2y : Nat) (hb : basis_core vb rb mlen = true)
    (hvx : vb[x]? = some (true, rx)) (hvy : vb[y]? = some (false, b2y)) :
    basis_core ((vb.set y (true, rx)).set x (false, rx)) (rb.set rx y)
      mlen = true := by
  have hxy : x ≠ y := by
    intro h; rw [h, hvy] at hvx; simp at hvx
  rcases (basis_core_prop vb rb mlen).mp hb with ⟨hlen, h1, h2⟩
  have hyL : y < vb.length := (List.getElem?_eq_some.mp hvy).1
  have hxL : x < vb.length := (List.getElem?_eq_some.mp hvx).1
  have hbx : rb[rx]? = some x := h1 x rx hvx
  have hrxL : rx < rb.length := (List.getElem?_eq_some.mp hbx).1
  apply (basis_core_prop _ _ _).mpr
  refine ⟨by rw [hlen, List.length_set], ?_, ?_⟩
  · intro v r2 hv
    by_cases hvx2 : v = x
    · subst hvx2
      rw [List.getElem?_set_self (by rw [List.length_set]; exact hxL)] at hv
      simp at hv
    · rw [List.getElem?_set_ne (fun h => hvx2 h.symm)] at hv
      by_cases hvy2 : v = y
      · subst hvy2
        rw [List.getElem?_set_self hyL] at hv
        have hr2 : r2 = rx := by
          simp only [Option.some.injEq, Prod.mk.injEq] at hv
          exact hv.2.symm
        rw [hr2, List.getElem?_set_self hrxL]
      · rw [List.getElem?_set_ne (fun h => hvy2 h.symm)] at hv
        have hrv := h1 v r2 hv
        have hne : r2 ≠ rx := by
          intro h
          rw [h, hbx] at hrv
          injection hrv with h3
          exact hvx2 h3.symm
        rw [List.getElem?_set_ne (fun h => hne h.symm)]
        exact hrv
  · intro r bv hrv
    by_cases hrx2 : r = rx
    · subst hrx2
      rw [List.getElem?_set_self hrxL] at hrv
      have hbvy : bv = y := by simpa using hrv.symm
      subst hbvy
      rw [List.getElem?_set_ne hxy, List.getElem?_set_self hyL]
    · rw [List.getElem?_set_ne (fun h => hrx2 h.symm)] at hrv
      have hvb := h2 r bv hrv
      have hbvy : bv ≠ y := by
        intro h; rw [h, hvy] at hvb; simp at hvb
      have hbvx : bv ≠ x := by
        intro h
        rw [h, hvx] at hvb
        simp only [Option.some.injEq, Prod.mk.injEq] at hvb
        exact hrx2 hvb.2.symm
      rw [List.getElem?_set_ne (fun h => hbvx h.symm),
        List.getElem?_set_ne (fun h => hbvy h.symm)]
      exact hvb

theorem basis_core_append (vb : List (Bool × Nat)) (rb : List Nat)
    (mlen bv b2old : Nat) (hb : basis_core vb rb mlen = true)
    (hvb : vb[bv]? = some (false, b2old)) :
    basis_core (vb.set bv (true, rb.length)) (rb ++ [bv]) (mlen + 1) = true := by
  rcases (basis_core_prop vb rb mlen).mp hb with ⟨hlen, h1, h2⟩
  have hbvL : bv < vb.length := (List.getElem?_eq_some.mp hvb).1
  apply (basis_core_prop _ _ _).mpr
  refine ⟨by rw [hlen, List.length_append]; rfl, ?_, ?_⟩
  · intro v r2 hv
    by_cases hvb2 : v = bv
    · subst hvb2
      rw [List.getElem?_set_self hbvL] at hv
      have hr2 : r2 = rb.length := by
        simp only [Option.some.injEq, Prod.mk.injEq] at hv
        exact hv.2.symm
      rw [hr2]
      exact List.getElem?_concat_length rb v
    · rw [List.getElem?_set_ne (fun h => hvb2 h.symm)] at hv
      have hrv := h1 v r2 hv
      have hL : r2 < rb.length := (List.getElem?_eq_some.mp hrv).1
      rw [List.getElem?_append, if_pos hL]
      exact hrv
  · intro r bw hrw
    rw [List.getElem?_append] at hrw
    by_cases hrL : r < rb.length
    · rw [if_pos hrL] at hrw
      have hvw := h2 r bw hrw
      have hbwbv : bw ≠ bv := by
        intro h; rw [h, hvb] at hvw; simp at hvw
      rw [List.getElem?_set_ne (fun h => hbwbv h.symm)]
      exact hvw
    · rw [if_neg hrL] at hrw
      have hr0 : r - rb.length = 0 := by
        rcases h0 : r - rb.length with - | k
        · rfl
        · rw [h0] at hrw; simp at hrw
      have hre : r = rb.length := by omega
      rw [hr0] at hrw
      have hbwv : bw = bv := by simpa using hrw.symm
      subst hbwv
      rw [List.getElem?_set_self hbvL, hre]

theorem basis_ok_congr (s s2 : State) (hv : skel_vars s2 = skel_vars s)
    (hr : skel_rows s2 = skel_rows s) (hm : s2.mat.length = s.mat.length) :
    basis_ok s2 = basis_ok s := by
  unfold basis_ok
  rw [hv, hr, hm]

/-- Skeleton preservation along an `Option`-monadic fold whose every
step preserves the basis skeleton. -/
theorem foldlM_skel (f : State → Nat → Option State) :
    ∀ (l : List Nat) (t t2 : State), l.foldlM f t = some t2 →
      (∀ t a t2, f t a = some t2 → skel_vars t2 = skel_vars t ∧
        skel_rows t2 = skel_rows t ∧ t2.mat.length = t.mat.length) →
      skel_vars t2 = skel_vars t ∧ skel_rows t2 = skel_rows t ∧
        t2.mat.length = t.mat.length := by
  intro l
  induction l with
  | nil =>
    intro t t2 h _
    simp only [List.foldlM_nil, Option.pure_def, Option.some.injEq] at h
    rw [← h]
    exact ⟨rfl, rfl, rfl⟩
  | cons a rest ih =>
    intro t t2 h hstep
    rw [List.foldlM_cons] at h
    rcases hst : f t a with - | t1
    · rw [hst] at h; simp at h
    · rw [hst] at h
      simp only [Option.pure_def, Option.bind_eq_bind, Option.some_bind] at h
      rcases ih t1 t2 h hstep with ⟨h1, h2, h3⟩
      rcases hstep t a t1 hst with ⟨g1, g2, g3⟩
      exact ⟨h1.trans g1, h2.trans g2, h3.trans g3⟩

/-- The basis-exchange of `pivot` (fixplex_def.h, lines 391-398)
preserves the basis bijection: the leaving base `x` and the entering
`y` swap roles on `x`'s row. -/
theorem basis_ok_exchange (s : State) (x y rx b2y : Nat) (A B : VarInfo)
    (RI : RowInfo)
    (hvx : (skel_vars s)[x]? = some (true, rx))
    (hvy : (skel_vars s)[y]? = some (false, b2y))
    (hA1 : A.is_base = true) (hA2 : A.base2row = rx)
    (hB1 : B.is_base = false) (hB2 : B.base2row = rx)
    (hRI : RI.base = y) (hb : basis_ok s = true) :
    basis_ok (add_patch
      { s with rows := s.rows.set rx RI,
               vars := (s.vars.set y A).set x B } y) = true := by
  unfold basis_ok at hb ⊢
  have hv2 : skel_vars (add_patch
      { s with rows := s.rows.set rx RI,
               vars := (s.vars.set y A).set x B } y) =
      ((skel_vars s).set y (true, rx)).set x (false, rx) := by
    unfold skel_vars
    rw [add_patch_vars]
    show ((s.vars.set y A).set x B).map _ = _
    simp only [List.map_set]
    rw [hA1, hA2, hB1, hB2]
  have hr2 : skel_rows (add_patch
      { s with rows := s.rows.set rx RI,
               vars := (s.vars.set y A).set x B } y) =
      (skel_rows s).set rx y := by
    unfold skel_rows
    rw [add_patch_rows]
    show (s.rows.set rx RI).map _ = _
    simp only [List.map_set]
    rw [hRI]
  have hm2 : (add_patch
      { s with rows := s.rows.set rx RI,
               vars := (s.vars.set y A).set x B } y).mat.length =
      s.mat.length := by
    rw [add_patch_mat]
  rw [hv2, hr2, hm2]
  exact basis_core_swap (skel_vars s) (skel_rows s) s.mat.length x y rx b2y
    hb hvx hvy

/-- C4 helper: `update_value` preserves the basis bookkeeping — every
state it touches changes only value fields and the To-Patch set. -/
theorem basis_ok_update_value (s : State) (v delta : Nat) (s2 : State)
    (h : update_value s v delta = some s2) (hb : basis_ok s = true) :
    basis_ok s2 = true := by
  unfold update_value at h
  rcases hv : s.vars[v]? with - | vi
  · simp [hv] at h
  · simp only [hv] at h
    split_ifs at h with hd hbase
    · simp only [Option.some.injEq] at h; rwa [← h]
    · have hP := foldlM_skel _ _ _ _ h (by
        intro t a t2 hst
        rcases hma : t.mat[a]? with - | row
        · simp [hma] at hst
        · rcases hra : t.rows[a]? with - | ri
          · simp [hma, hra] at hst
          · simp only [hma, hra] at hst
            split_ifs at hst with hc
            · simp only [Option.some.injEq] at hst
              rw [← hst]; exact ⟨rfl, rfl, rfl⟩
            · rcases hvb : t.vars[ri.base]? with - | bi
              · simp [hvb] at hst
              · simp only [hvb, Option.some.injEq] at hst
                rw [← hst]
                refine ⟨?_, ?_, ?_⟩
                · unfold skel_vars
                  rw [add_patch_vars]
                  exact map_set_congr _ _ _ _ _ hvb rfl
                · unfold skel_rows
                  rw [add_patch_rows]
                  exact map_set_congr _ _ _ _ _ hra rfl
                · rw [add_patch_mat])
      rw [basis_ok_congr _ s2 hP.1 hP.2.1 hP.2.2]
      have hv1 : skel_vars { s with vars := s.vars.set v { vi with value := radd s.w vi.value delta } } = skel_vars s := by
        unfold skel_vars
        exact map_set_congr _ _ _ _ _ hv rfl
      rw [basis_ok_congr s _ hv1 rfl rfl]
      exact hb

/-- C4 helper: `pivot` preserves the basis bookkeeping — the basis
exchange swaps `x` and `y` on one row and the cascade only rewrites
values and coefficients. -/
theorem basis_ok_pivot (s : State) (x y b nv : Nat) (s2 : State)
    (h : pivot s x y b nv = some s2) (hb : basis_ok s = true) :
    basis_ok s2 = true := by
  unfold pivot at h
  rcases hx : s.vars[x]? with - | xI
  · simp [hx] at h
  rcases hy : s.vars[y]? with - | yI
  · simp [hx, hy] at h
  simp only [hx, hy] at h
  split_ifs at h with hbx hby
  rcases hr : s.rows[xI.base2row]? with - | ri
  · simp [hr] at h
  rcases hm2 : s.mat[xI.base2row]? with - | mrow
  · simp [hr, hm2] at h
  simp only [hr, hm2] at h
  have hbxT : xI.is_base = true := by
    rcases hbv : xI.is_base with - | -
    · exact absurd hbv hbx
    · rfl
  have hbyF : yI.is_base = false := by
    rcases hbv : yI.is_base with - | -
    · rfl
    · exact absurd hbv hby
  have hP := foldlM_skel _ _ _ _ h (by
    intro t a t2 hst
    by_cases hrz : a = xI.base2row
    · rw [if_pos hrz] at hst
      simp only [Option.some.injEq] at hst
      rw [← hst]; exact ⟨rfl, rfl, rfl⟩
    · rw [if_neg hrz] at hst
      rcases htm : t.mat[a]? with - | mz
      · simp [htm] at hst
      · rcases htr : t.rows[a]? with - | rz
        · simp [htm, htr] at hst
        · simp only [htm, htr] at hst
          by_cases htz : trailing_zeros s.w b ≤
              trailing_zeros t.w (coeffOf (s.mat.getD a []) y)
          case neg => rw [if_neg htz] at hst; simp at hst
          rw [if_pos htz] at hst
          split at hst
          · simp at hst
          · split at hst
            · simp at hst
            · next zI hzv =>
              simp only [Option.some.injEq] at hst
              rw [← hst]
              refine ⟨?_, ?_, ?_⟩
              · unfold skel_vars
                rw [add_patch_vars]
                exact map_set_congr _ _ _ _ _ hzv rfl
              · unfold skel_rows
                rw [add_patch_rows]
                exact map_set_congr _ _ _ _ _ htr rfl
              · rw [add_patch_mat]
                exact List.length_set _ _ _)
  rw [basis_ok_congr _ s2 hP.1 hP.2.1 hP.2.2]
  have HVX : (skel_vars s)[x]? = some (true, xI.base2row) := by
    simp only [skel_vars, List.getElem?_map, hx, Option.map_some']
    rw [hbxT]
  have HVY : (skel_vars s)[y]? = some (false, yI.base2row) := by
    simp only [skel_vars, List.getElem?_map, hy, Option.map_some']
    rw [hbyF]
  exact basis_ok_exchange s x y xI.base2row yI.base2row _ _ _
    HVX HVY rfl rfl rfl rfl rfl hb

/-- The post-state of a successful `add_row`: a fresh row owned by the
new base variable extends the basis bijection. -/
theorem basis_ok_append_state (s : State) (bvr b2old : Nat) (NB : VarInfo)
    (RI : RowInfo) (row : List Nat)
    (hvb : (skel_vars s)[bvr]? = some (false, b2old))
    (hN1 : NB.is_base = true) (hN2 : NB.base2row = s.rows.length)
    (hRI : RI.base = bvr) (hb : basis_ok s = true) :
    basis_ok (add_patch
      { s with rows := s.rows ++ [RI], mat := s.mat ++ [row],
               vars := s.vars.set bvr NB } bvr) = true := by
  unfold basis_ok at hb ⊢
  have hv2 : skel_vars (add_patch
      { s with rows := s.rows ++ [RI], mat := s.mat ++ [row],
               vars := s.vars.set bvr NB } bvr) =
      (skel_vars s).set bvr (true, (skel_rows s).length) := by
    unfold skel_vars skel_rows
    rw [add_patch_vars]
    show (s.vars.set bvr NB).map _ = _
    simp only [List.map_set, List.length_map]
    rw [hN1, hN2]
  have hr2 : skel_rows (add_patch
      { s with rows := s.rows ++ [RI], mat := s.mat ++ [row],
               vars := s.vars.set bvr NB } bvr) =
      skel_rows s ++ [bvr] := by
    unfold skel_rows
    rw [add_patch_rows]
    show (s.rows ++ [RI]).map _ = _
    rw [List.map_append]
    simp only [List.map_cons, List.map_nil]
    rw [hRI]
  have hm3 : (add_patch
      { s with rows := s.rows ++ [RI], mat := s.mat ++ [row],
               vars := s.vars.set bvr NB } bvr).mat.length =
      s.mat.length + 1 := by
    rw [add_patch_mat]
    show (s.mat ++ [row]).length = _
    rw [List.length_append]
    rfl
  rw [hv2, hr2, hm3]
  exact basis_core_append _ _ _ _ b2old hb hvb

/-- C4 helper: `add_row` preserves the basis bookkeeping. -/
theorem basis_ok_add_row (s : State) (bvr : Nat)
    (entries : List (Nat × Nat)) (s2 : State)
    (h : add_row s bvr entries = some s2) (hb : basis_ok s = true) :
    basis_ok s2 = true := by
  unfold add_row at h
  split_ifs at h with hfmt
  rcases hvb : s.vars[bvr]? with - | bi
  · simp [hvb] at h
  · simp only [hvb] at h
    split_ifs at h with hbc hbase hcoll
    simp only [Option.some.injEq] at h
    rw [← h]
    have hbF : bi.is_base = false := by
      rcases hbv : bi.is_base with - | -
      · rfl
      · exact absurd hbv hbase
    have HVB : (skel_vars s)[bvr]? = some (false, bi.base2row) := by
      simp only [skel_vars, List.getElem?_map, hvb, Option.map_some']
      rw [hbF]
    exact basis_ok_append_state s bvr bi.base2row _ _ _ HVB rfl rfl rfl hb

/-- Skeleton invariance of the spec-modelled To-Patch selection. -/
theorem select_var_skel (O : Oracle) (s : State) (v : Nat) (s1 : State)
    (h : select_var_to_fix O s = some (v, s1)) :
    skel_vars s1 = skel_vars s ∧ skel_rows s1 = skel_rows s ∧
      s1.mat.length = s.mat.length := by
  unfold select_var_to_fix at h
  rcases htp : s.to_patch with - | ⟨hd, tl⟩
  · simp [htp] at h
  · simp only [htp] at h
    simp only [Option.some.injEq, Prod.mk.injEq] at h
    rw [← h.2]
    exact ⟨rfl, rfl, rfl⟩

/-- Skeleton invariance of the spec-modelled anti-cycling bookkeeping. -/
theorem check_blands_skel (O : Oracle) (v : Nat) (prev : Option Nat)
    (nrep : Nat) (s : State) :
    skel_vars (check_blands_rule O v prev nrep s).2 = skel_vars s ∧
    skel_rows (check_blands_rule O v prev nrep s).2 = skel_rows s ∧
    (check_blands_rule O v prev nrep s).2.mat.length = s.mat.length := by
  unfold check_blands_rule
  split_ifs <;> exact ⟨rfl, rfl, rfl⟩

/-- C4 helper: `make_var_feasible` preserves the basis bookkeeping. -/
theorem basis_ok_mvf (O : Oracle) (s : State) (x : Nat) (r : Lbool)
    (s2 : State) (h : make_var_feasible O s x = some (r, s2))
    (hb : basis_ok s = true) : basis_ok s2 = true := by
  unfold make_var_feasible at h
  rcases hx : s.vars[x]? with - | xI
  · simp [hx] at h
  · simp only [hx] at h
    split_ifs at h with hin
    · simp only [Option.some.injEq, Prod.mk.injEq] at h
      rwa [← h.2]
    · rcases hsel : select_pivot_core O s x
          (new_value_choice s.w xI.lo xI.hi xI.value) with - | res
      · simp [hsel] at h
      · simp only [hsel] at h
        rcases res with - | yb
        · rcases hir : is_infeasible_row O.sadd O.smul s x with - | bb
          · simp [hir] at h
          · rcases bb with - | -
            · simp only [hir, Option.some.injEq, Prod.mk.injEq] at h
              rwa [← h.2]
            · simp only [hir, Option.some.injEq, Prod.mk.injEq] at h
              rwa [← h.2]
        · rcases yb with ⟨yv, bb⟩
          rcases hp : pivot s x yv bb
              (new_value_choice s.w xI.lo xI.hi xI.value) with - | s3
          · simp [hp] at h
          · simp only [hp, Option.some.injEq, Prod.mk.injEq] at h
            rw [← h.2]
            exact basis_ok_pivot s x yv bb _ s3 hp hb

/-- C4 helper: the feasibility loop preserves the basis bookkeeping. -/
theorem basis_ok_mf_aux (O : Oracle) :
    ∀ (fuel iters nrep : Nat) (prev : Option Nat) (s : State) (r : Lbool)
      (s2 : State), make_feasible_aux O fuel iters nrep prev s = some (r, s2) →
      basis_ok s = true → basis_ok s2 = true := by
  intro fuel
  induction fuel with
  | zero =>
    intro iters nrep prev s r s2 h hb
    simp [make_feasible_aux] at h
  | succ fuel ih =>
    intro iters nrep prev s r s2 h hb
    rcases hsv : select_var_to_fix O s with - | vs
    · simp only [make_feasible_aux, hsv, Option.some.injEq,
        Prod.mk.injEq] at h
      rwa [← h.2]
    · rcases vs with ⟨v, s1⟩
      simp only [make_feasible_aux, hsv] at h
      split_ifs at h with hguard
      · simp only [Option.some.injEq, Prod.mk.injEq] at h
        rwa [← h.2]
      · have hb1 : basis_ok s1 = true := by
          rcases select_var_skel O s v s1 hsv with ⟨a1, a2, a3⟩
          rw [basis_ok_congr s s1 a1 a2 a3]
          exact hb
        have hbc : basis_ok (check_blands_rule O v prev nrep s1).2 = true := by
          rcases check_blands_skel O v prev nrep s1 with ⟨a1, a2, a3⟩
          rw [basis_ok_congr s1 _ a1 a2 a3]
          exact hb1
        rcases hmv : make_var_feasible O
            (check_blands_rule O v prev nrep s1).2 v with - | rs
        · simp [hmv] at h
        · rcases rs with ⟨rr, s3⟩
          have hb3 : basis_ok s3 = true :=
            basis_ok_mvf O _ v rr s3 hmv hbc
          rcases rr with - | - | -
          · simp only [hmv] at h
            exact ih _ _ _ s3 r s2 h hb3
          · simp only [hmv, Option.some.injEq, Prod.mk.injEq] at h
            rw [← h.2]
            have c1 : skel_vars (add_patch
                { s3 with infeasible_var := some v } v) = skel_vars s3 := by
              unfold skel_vars; rw [add_patch_vars]
            have c2 : skel_rows (add_patch
                { s3 with infeasible_var := some v } v) = skel_rows s3 := by
              unfold skel_rows; rw [add_patch_rows]
            have c3 : (add_patch
                { s3 with infeasible_var := some v } v).mat.length =
                s3.mat.length := by
              rw [add_patch_mat]
            rw [basis_ok_congr s3 _ c1 c2 c3]
            exact hb3
          · simp only [hmv, Option.some.injEq, Prod.mk.injEq] at h
            rw [← h.2]
            have c1 : skel_vars (add_patch s3 v) = skel_vars s3 := by
              unfold skel_vars; rw [add_patch_vars]
            have c2 : skel_rows (add_patch s3 v) = skel_rows s3 := by
              unfold skel_rows; rw [add_patch_rows]
            have c3 : (add_patch s3 v).mat.length = s3.mat.length := by
              rw [add_patch_mat]
            rw [basis_ok_congr s3 _ c1 c2 c3]
            exact hb3

/-- C4 helper: `make_feasible` preserves the basis bookkeeping. -/
theorem basis_ok_make_feasible (O : Oracle) (s : State) (r : Lbool)
    (s2 : State) (h : make_feasible O s = some (r, s2))
    (hb : basis_ok s = true) : basis_ok s2 = true := by
  unfold make_feasible at h
  have hb0 : basis_ok { s with bland := false, infeasible_var := none } = true := by
    rw [basis_ok_congr s { s with bland := false, infeasible_var := none } rfl rfl rfl]
    exact hb
  exact basis_ok_mf_aux O _ _ _ _ _ r s2 h hb0

/-- C4: the basis-bookkeeping invariant — `mat` parallel to `rows`,
every variable marked basic owning exactly the row recorded for it, and
every row's base variable marked basic and owning exactly that row (so
two distinct rows never own the same variable; see `basis_core_prop`
for the unfolded meaning) — is preserved by `add_row`, `update_value`,
`pivot`, and `make_feasible` whenever they produce a result state. -/
theorem basis_invariant_preserved (O : Oracle) (s : State)
    (bvr v delta x y b nv : Nat) (entries : List (Nat × Nat)) :
    (∀ s2, add_row s bvr entries = some s2 → basis_ok s = true →
      basis_ok s2 = true) ∧
    (∀ s2, update_value s v delta = some s2 → basis_ok s = true →
      basis_ok s2 = true) ∧
    (∀ s2, pivot s x y b nv = some s2 → basis_ok s = true →
      basis_ok s2 = true) ∧
    (∀ r s2, make_feasible O s = some (r, s2) → basis_ok s = true →
      basis_ok s2 = true) :=
  ⟨fun s2 h hb => basis_ok_add_row s bvr entries s2 h hb,
   fun s2 h hb => basis_ok_update_value s v delta s2 h hb,
   fun s2 h hb => basis_ok_pivot s x y b nv s2 h hb,
   fun r s2 h hb => basis_ok_make_feasible O s r s2 h hb⟩

/-- Witness for C4: a concrete `update_value` on the two-row tableau
keeps the basis bijection. -/
theorem basis_invariant_preserved_witness :
    basis_ok ⟨4, [⟨13, 0, 0, true, 0⟩, ⟨1, 0, 0, false, 0⟩,
      ⟨11, 0, 0, true, 1⟩], [⟨0, 1, 3⟩, ⟨2, 1, 5⟩],
      [[1, 3, 0], [0, 5, 1]], [2, 0], false, none⟩ = true :=
  (basis_invariant_preserved oracle0 twoRowState 0 1 1 0 0 0 0 []).2.1 _
    (by decide) (by decide)

/-- A nonempty To-Patch set always yields a selection. -/
theorem select_var_isSome (O : Oracle) (s : State) (h : s.to_patch ≠ []) :
    (select_var_to_fix O s).isSome = true := by
  unfold select_var_to_fix
  rcases htp : s.to_patch with - | ⟨hd, tl⟩
  · exact absurd htp h
  · rfl

/-- C3 helper: beyond `m_max_iterations + 2` frames the fuel does not
influence the run — every continued frame increments the iteration
counter, which the once-per-iteration budget guard caps, so the loop
depth is bounded by the configured budget. -/
theorem mf_aux_fuel_stable (O : Oracle) :
    ∀ f1 f2 iters nrep prev s, 1 ≤ f1 → 1 ≤ f2 →
      O.maxIter + 2 ≤ iters + f1 → O.maxIter + 2 ≤ iters + f2 →
      make_feasible_aux O f1 iters nrep prev s =
        make_feasible_aux O f2 iters nrep prev s := by
  intro f1
  induction f1 with
  | zero => intro f2 iters nrep prev s h1 _ _ _; exact absurd h1 (by omega)
  | succ g1 ih =>
    intro f2 iters nrep prev s _ h2 hb1 hb2
    rcases f2 with - | g2
    · exact absurd h2 (by omega)
    rcases hsv : select_var_to_fix O s with - | ⟨v, s1⟩
    · simp only [make_feasible_aux, hsv]
    · simp only [make_feasible_aux, hsv]
      by_cases hg : O.limit iters = false ∨ O.maxIter < iters
      · rw [if_pos hg, if_pos hg]
      · rw [if_neg hg, if_neg hg]
        have hile : ¬ O.maxIter < iters := fun hlt => hg (Or.inr hlt)
        rcases hmv : make_var_feasible O
            (check_blands_rule O v prev nrep s1).2 v with - | ⟨r, s3⟩
        · rfl
        · rcases r with - | - | -
          · exact ih g2 (iters + 1) (check_blands_rule O v prev nrep s1).1
              (some v) s3 (by omega) (by omega) (by omega) (by omega)
          · rfl
          · rfl

/-- C3: the loop of `make_feasible` terminates within the configured
iteration budget — any fuel of at least `m_max_iterations + 2` frames
computes the same result on every tableau, so the recursion depth is
bounded by the budget; with an empty To-Patch set it reports feasible
at once; and when the external cancellation/resource signal fires
(polled once per iteration) it reports unknown with the tableau
exactly as entered (only the Bland flag and the recorded infeasible
variable reset), hence valid and resumable. -/
theorem make_feasible_terminates (O : Oracle) (s : State) :
    (∀ fuel, O.maxIter + 2 ≤ fuel →
      make_feasible_aux O fuel 0 0 none
          { s with bland := false, infeasible_var := none } =
        make_feasible O s) ∧
    (s.to_patch = [] →
      make_feasible O s =
        some (Lbool.ltrue,
          { s with bland := false, infeasible_var := none })) ∧
    (O.limit 0 = false → s.to_patch ≠ [] →
      make_feasible O s =
        some (Lbool.lundef,
          { s with bland := false, infeasible_var := none })) := by
  refine ⟨fun fuel hf => ?_, fun hemp => ?_, fun hlim hne => ?_⟩
  · unfold make_feasible
    exact mf_aux_fuel_stable O fuel (O.maxIter + 2) 0 0 none _
      (by omega) (by omega) (by omega) (by omega)
  · unfold make_feasible
    have hsv : select_var_to_fix O
        { s with bland := false, infeasible_var := none } = none := by
      unfold select_var_to_fix
      rw [show ({ s with bland := false, infeasible_var := none } :
        State).to_patch = s.to_patch from rfl, hemp]
    rw [show (O.maxIter + 2) = (O.maxIter + 1) + 1 from rfl]
    simp only [make_feasible_aux, hsv]
  · unfold make_feasible
    rcases hsel : select_var_to_fix O
        { s with bland := false, infeasible_var := none } with - | ⟨v, s1⟩
    · have hs := select_var_isSome O
        { s with bland := false, infeasible_var := none } hne
      rw [hsel] at hs
      simp at hs
    · rw [show (O.maxIter + 2) = (O.maxIter + 1) + 1 from rfl]
      simp only [make_feasible_aux, hsel]
      rw [if_pos (Or.inl hlim)]

/-- Witness for C3: on the queued one-variable tableau with the
cancellation signal firing immediately, extra fuel changes nothing and
the loop suspends with the tableau unchanged. -/
theorem make_feasible_terminates_witness :
    make_feasible_aux oracleStop 50 0 0 none
        { patchedState with bland := false, infeasible_var := none } =
      make_feasible oracleStop patchedState ∧
    make_feasible oracleStop patchedState =
      some (Lbool.lundef,
        { patchedState with bland := false, infeasible_var := none }) :=
  ⟨(make_feasible_terminates oracleStop patchedState).1 50 (by decide),
   (make_feasible_terminates oracleStop patchedState).2.2 (by decide)
     (by decide)⟩

end Fixplex
